import Mathlib

/-!
Verification of the stencil scaffolding generator's substitution engine,
binary classifier and generation walker, embedded from
`internal/replacer/replacer.go`, `internal/generator` and `config/config.go`.

Go byte slices and strings are both modelled as `List Char` (one `Char`
per byte; every input appearing in the repository's contracts is ASCII).
Go maps are modelled as association lists exposing the (unspecified)
iteration order.  Filesystem interaction is modelled by an explicit
effect trace.
-/

/-- A Go byte slice or string: one `Char` per byte. -/
abbrev Str := List Char

/-- Model of `config.FormatOptions`: four independent per-format enable flags. -/
structure FormatOptions where
  enableBraces : Bool
  enableAngleBrackets : Bool
  enableUnderscores : Bool
  enablePercent : Bool
deriving DecidableEq

/-- The default `FormatOptions` (all four formats enabled), from
`config.DefaultConfig`. -/
def allFormats : FormatOptions := ⟨true, true, true, true⟩

/-- The pattern `"{{" + key + "}}"` built by `ReplaceInContent`. -/
def bracesPat (key : Str) : Str := "\x7b\x7b".data ++ key ++ "\x7d\x7d".data

/-- The pattern `"<<" + key + ">>"` built by `ReplaceInContent`. -/
def anglePat (key : Str) : Str := "<<".data ++ key ++ ">>".data

/-- The pattern `"__" + key + "__"` built by `ReplaceInContent`. -/
def underscorePat (key : Str) : Str := "__".data ++ key ++ "__".data

/-- The pattern `"%" + key + "%"` built by `ReplaceInContent`. -/
def percentPat (key : Str) : Str := "%".data ++ key ++ "%".data

/-- Core of Go's `bytes.ReplaceAll(s, pat, rep)` for the nonempty patterns
the replacer builds: scan left to right, replacing each leftmost
non-overlapping occurrence of `pat` by `rep`.  `fuel` bounds recursion
depth; callers pass `s.length`, which always suffices because every step
consumes at least one element of `s`.  (Go's empty-pattern interspersal
behaviour is unreachable here: every pattern contains its delimiters, so
the `isEmpty` guard merely returns the remaining input unchanged.) -/
def bytesReplaceAllGo : Nat → Str → Str → Str → Str
  | 0, s, _, _ => s
  | _ + 1, [], _, _ => []
  | fuel + 1, c :: rest, pat, rep =>
    if pat.isEmpty then c :: rest
    else if pat.isPrefixOf (c :: rest) then
      rep ++ bytesReplaceAllGo fuel ((c :: rest).drop pat.length) pat rep
    else
      c :: bytesReplaceAllGo fuel rest pat rep

/-- Go's `bytes.ReplaceAll`, as used by `Replacer.ReplaceInContent`. -/
def bytesReplaceAll (s pat rep : Str) : Str :=
  bytesReplaceAllGo s.length s pat rep

/-- Core of Go's `strings.ReplaceAll(s, pat, rep)`: the same left-to-right
leftmost non-overlapping scan, at the byte level, as the `bytes` package
version (kept as a separate definition mirroring the separate Go
function). -/
def stringsReplaceAllGo : Nat → Str → Str → Str → Str
  | 0, s, _, _ => s
  | _ + 1, [], _, _ => []
  | fuel + 1, c :: rest, pat, rep =>
    if pat.isEmpty then c :: rest
    else if pat.isPrefixOf (c :: rest) then
      rep ++ stringsReplaceAllGo fuel ((c :: rest).drop pat.length) pat rep
    else
      c :: stringsReplaceAllGo fuel rest pat rep

/-- Go's `strings.ReplaceAll`, as used by `Replacer.ReplaceInPath`. -/
def stringsReplaceAll (s pat rep : Str) : Str :=
  stringsReplaceAllGo s.length s pat rep

/-- Predicate `occursIn pat s` holds when `pat` occurs as a contiguous subsequence
of `s` (the condition under which a `ReplaceAll` pass can change `s`). -/
def occursIn (pat : Str) : Str → Bool
  | [] => pat.isEmpty
  | c :: rest => pat.isPrefixOf (c :: rest) || occursIn pat rest

/-- A `bytes.ReplaceAll` pass whose pattern does not occur in the input
returns the input unchanged, for any fuel. -/
theorem bytesReplaceAllGo_of_not_occurs (pat rep : Str) :
    ∀ (fuel : Nat) (s : Str), occursIn pat s = false →
      bytesReplaceAllGo fuel s pat rep = s := by
  intro fuel
  induction fuel with
  | zero => intro s _; rfl
  | succ n ih =>
    intro s h
    cases s with
    | nil => rfl
    | cons c rest =>
      simp only [occursIn, Bool.or_eq_false_iff] at h
      have hpe : pat.isEmpty = false := by
        cases hp : pat.isEmpty
        · rfl
        · exfalso
          have : pat = [] := by
            cases pat
            · rfl
            · simp [List.isEmpty] at hp
          subst this
          simp [List.isPrefixOf] at h
      simp only [bytesReplaceAllGo, hpe, h.1, Bool.false_eq_true, if_false,
        ih rest h.2]

/-- A `bytes.ReplaceAll` with a non-occurring pattern is the identity. -/
theorem bytesReplaceAll_of_not_occurs (s pat rep : Str)
    (h : occursIn pat s = false) : bytesReplaceAll s pat rep = s :=
  bytesReplaceAllGo_of_not_occurs pat rep s.length s h

/-- The `strings` and `bytes` package `ReplaceAll` cores coincide. -/
theorem stringsReplaceAllGo_eq_bytesReplaceAllGo :
    ∀ (fuel : Nat) (s pat rep : Str),
      stringsReplaceAllGo fuel s pat rep = bytesReplaceAllGo fuel s pat rep := by
  intro fuel
  induction fuel with
  | zero => intro s pat rep; rfl
  | succ n ih =>
    intro s pat rep
    cases s with
    | nil => rfl
    | cons c rest =>
      simp only [stringsReplaceAllGo, bytesReplaceAllGo]
      by_cases hpe : pat.isEmpty
      · simp [hpe]
      · simp only [hpe, if_false]
        by_cases hpre : pat.isPrefixOf (c :: rest)
        · simp [hpre, ih]
        · simp [hpre, ih]

/-- The function `strings.ReplaceAll` equals `bytes.ReplaceAll`. -/
theorem stringsReplaceAll_eq_bytesReplaceAll (s pat rep : Str) :
    stringsReplaceAll s pat rep = bytesReplaceAll s pat rep :=
  stringsReplaceAllGo_eq_bytesReplaceAllGo s.length s pat rep

/-- One iteration of `ReplaceInContent`'s `for key, value := range` loop:
the four `bytes.ReplaceAll` passes for a single variable, in source
order (`{{key}}`, `<<key>>`, `__key__`, `%key%`). -/
def applyVariable (acc : Str) (kv : Str × Str) : Str :=
  bytesReplaceAll
    (bytesReplaceAll
      (bytesReplaceAll
        (bytesReplaceAll acc (bracesPat kv.1) kv.2)
        (anglePat kv.1) kv.2)
      (underscorePat kv.1) kv.2)
    (percentPat kv.1) kv.2

/-- Model of `Replacer.ReplaceInContent` (replacer.go lines 23-43): for every
variable, replace all occurrences of its four wrapped patterns by its
value.  The association list carries Go's (unspecified) map iteration
order. -/
def ReplaceInContent (vars : List (Str × Str)) (content : Str) : Str :=
  vars.foldl applyVariable content

/-- One iteration of `ReplaceInPath`'s loop: the four
`strings.ReplaceAll` passes for a single variable, in source order. -/
def applyVariableInPath (acc : Str) (kv : Str × Str) : Str :=
  stringsReplaceAll
    (stringsReplaceAll
      (stringsReplaceAll
        (stringsReplaceAll acc (bracesPat kv.1) kv.2)
        (anglePat kv.1) kv.2)
      (underscorePat kv.1) kv.2)
    (percentPat kv.1) kv.2

/-- Model of `Replacer.ReplaceInPath` (replacer.go lines 46-62): same four
patterns, same order, via `strings.ReplaceAll` on the path string. -/
def ReplaceInPath (vars : List (Str × Str)) (path : Str) : Str :=
  vars.foldl applyVariableInPath path

/-- A guarded `bytes.ReplaceAll` pass: run only when the format flag `b`
is enabled. -/
def passIf (b : Bool) (pat rep t : Str) : Str :=
  if b then bytesReplaceAll t pat rep else t

/-- Modelled from the spec: the format-aware substitution pass of the
`Replacer` built by `NewReplacer(variables, formats)`.  The generator
calls this two-argument constructor, but the format-aware replacer body
is not under src/ (src's replacer.go shows the formats-less version);
per spec §4.1, each of the four passes runs only when its
`FormatOptions` flag is enabled. -/
def applyVariableF (F : FormatOptions) (acc : Str) (kv : Str × Str) : Str :=
  passIf F.enablePercent (percentPat kv.1) kv.2
    (passIf F.enableUnderscores (underscorePat kv.1) kv.2
      (passIf F.enableAngleBrackets (anglePat kv.1) kv.2
        (passIf F.enableBraces (bracesPat kv.1) kv.2 acc)))

/-- Modelled from the spec: format-aware `ReplaceInContent` of the
two-argument `NewReplacer` (body not under src/): for every variable,
apply the enabled formats' passes only. -/
def replaceInContentF (F : FormatOptions) (vars : List (Str × Str))
    (content : Str) : Str :=
  vars.foldl (applyVariableF F) content

/-- A guarded `strings.ReplaceAll` pass for path substitution. -/
def passIfPath (b : Bool) (pat rep t : Str) : Str :=
  if b then stringsReplaceAll t pat rep else t

/-- Modelled from the spec: format-aware `ReplaceInPath` pass of the
two-argument `NewReplacer` (body not under src/), mirroring
`applyVariableF` on path strings via `strings.ReplaceAll`. -/
def applyVariableInPathF (F : FormatOptions) (acc : Str) (kv : Str × Str) : Str :=
  passIfPath F.enablePercent (percentPat kv.1) kv.2
    (passIfPath F.enableUnderscores (underscorePat kv.1) kv.2
      (passIfPath F.enableAngleBrackets (anglePat kv.1) kv.2
        (passIfPath F.enableBraces (bracesPat kv.1) kv.2 acc)))

/-- Modelled from the spec: format-aware `ReplaceInPath` (body not under
src/). -/
def replaceInPathF (F : FormatOptions) (vars : List (Str × Str))
    (path : Str) : Str :=
  vars.foldl (applyVariableInPathF F) path

/-- Predicate `noPatternOccurs vars s`: no variable's pattern, in any of the four
formats, occurs in `s` (i.e. `s` contains no remaining placeholder for
any key of the set). -/
def noPatternOccurs (vars : List (Str × Str)) (s : Str) : Bool :=
  vars.all fun kv =>
    !occursIn (bracesPat kv.1) s && !occursIn (anglePat kv.1) s &&
    !occursIn (underscorePat kv.1) s && !occursIn (percentPat kv.1) s

/-- Predicate `noEnabledPatternOccurs F vars s`: no variable's pattern in any
format enabled by `F` occurs in `s` (disabled-format placeholders may
occur freely). -/
def noEnabledPatternOccurs (F : FormatOptions) (vars : List (Str × Str))
    (s : Str) : Bool :=
  vars.all fun kv =>
    (!F.enableBraces || !occursIn (bracesPat kv.1) s) &&
    (!F.enableAngleBrackets || !occursIn (anglePat kv.1) s) &&
    (!F.enableUnderscores || !occursIn (underscorePat kv.1) s) &&
    (!F.enablePercent || !occursIn (percentPat kv.1) s)

/-- A guarded pass whose pattern does not occur (or whose flag is off)
leaves the input unchanged. -/
theorem passIf_of_not_occurs (b : Bool) (pat rep s : Str)
    (h : (!b || !occursIn pat s) = true) : passIf b pat rep s = s := by
  cases b with
  | false => rfl
  | true =>
    simp only [Bool.not_true, Bool.false_or, Bool.not_eq_true'] at h
    simp [passIf, bytesReplaceAll_of_not_occurs s pat rep h]

/-- A single variable's format-aware pass leaves `s` unchanged when none
of its enabled patterns occur in `s`. -/
theorem applyVariableF_of_not_occurs (F : FormatOptions) (kv : Str × Str) (s : Str)
    (h1 : (!F.enableBraces || !occursIn (bracesPat kv.1) s) = true)
    (h2 : (!F.enableAngleBrackets || !occursIn (anglePat kv.1) s) = true)
    (h3 : (!F.enableUnderscores || !occursIn (underscorePat kv.1) s) = true)
    (h4 : (!F.enablePercent || !occursIn (percentPat kv.1) s) = true) :
    applyVariableF F s kv = s := by
  unfold applyVariableF
  rw [passIf_of_not_occurs F.enableBraces _ _ s h1,
    passIf_of_not_occurs F.enableAngleBrackets _ _ s h2,
    passIf_of_not_occurs F.enableUnderscores _ _ s h3,
    passIf_of_not_occurs F.enablePercent _ _ s h4]

/-- The format-aware substitution leaves `s` unchanged when no enabled
pattern of any variable occurs in `s`. -/
theorem replaceInContentF_of_not_occurs (F : FormatOptions)
    (vars : List (Str × Str)) (s : Str)
    (h : noEnabledPatternOccurs F vars s = true) :
    replaceInContentF F vars s = s := by
  induction vars with
  | nil => rfl
  | cons kv rest ih =>
    simp only [noEnabledPatternOccurs, List.all_cons, Bool.and_eq_true] at h
    obtain ⟨⟨⟨⟨hb, ha⟩, hu⟩, hp⟩, hrest⟩ := h
    simp only [replaceInContentF, List.foldl_cons]
    rw [applyVariableF_of_not_occurs F kv s hb ha hu hp]
    exact ih hrest

/-- A single variable's (formats-less) pass leaves `s` unchanged when
none of its four patterns occur in `s`. -/
theorem applyVariable_of_not_occurs (kv : Str × Str) (s : Str)
    (h1 : occursIn (bracesPat kv.1) s = false)
    (h2 : occursIn (anglePat kv.1) s = false)
    (h3 : occursIn (underscorePat kv.1) s = false)
    (h4 : occursIn (percentPat kv.1) s = false) :
    applyVariable s kv = s := by
  unfold applyVariable
  rw [bytesReplaceAll_of_not_occurs s _ kv.2 h1,
    bytesReplaceAll_of_not_occurs s _ kv.2 h2,
    bytesReplaceAll_of_not_occurs s _ kv.2 h3,
    bytesReplaceAll_of_not_occurs s _ kv.2 h4]

/-- Function `ReplaceInContent` leaves `s` unchanged when no pattern of any
variable occurs in `s`. -/
theorem ReplaceInContent_of_not_occurs (vars : List (Str × Str)) (s : Str)
    (h : noPatternOccurs vars s = true) :
    ReplaceInContent vars s = s := by
  induction vars with
  | nil => rfl
  | cons kv rest ih =>
    simp only [noPatternOccurs, List.all_cons, Bool.and_eq_true,
      Bool.not_eq_true'] at h
    obtain ⟨⟨⟨⟨hb, ha⟩, hu⟩, hp⟩, hrest⟩ := h
    simp only [ReplaceInContent, List.foldl_cons]
    rw [applyVariable_of_not_occurs kv s hb ha hu hp]
    exact ih hrest

/-- The character class `[A-Za-z0-9_]` of the `__var__` and `%var%`
extraction regexes. -/
def isWordChar (c : Char) : Bool := c.isAlphanum || c = '_'

/-- Scan core for the regex `\{\{([^}]+)\}\}` used by
`ExtractVariablesFromFile`: at each `{{`, the greedy `[^}]+` group is
the maximal run of non-`}` characters, which must be nonempty and
followed by `}}`; on failure the scan restarts one character later, on
success it continues after the match (`FindAllSubmatch` is
non-overlapping, leftmost-first).  `fuel` bounds recursion; every
recursive call shrinks the input, so `s.length` suffices. -/
def scanBracesGo : Nat → Str → List Str
  | 0, _ => []
  | _ + 1, [] => []
  | fuel + 1, c1 :: rest1 =>
    match c1, rest1 with
    | '\x7b', '\x7b' :: rest =>
      (fun name =>
        if name.isEmpty then scanBracesGo fuel ('\x7b' :: rest)
        else
          match rest.dropWhile (fun c => c ≠ '\x7d') with
          | '\x7d' :: '\x7d' :: tail => name :: scanBracesGo fuel tail
          | _ => scanBracesGo fuel ('\x7b' :: rest))
        (rest.takeWhile (fun c => c ≠ '\x7d'))
    | _, _ => scanBracesGo fuel rest1

/-- Names captured by the `\{\{([^}]+)\}\}` scan. -/
def scanBraces (s : Str) : List Str := scanBracesGo s.length s

/-- Scan core for the regex `<<([^>]+)>>`, structured exactly like the
braces scan. -/
def scanAngleGo : Nat → Str → List Str
  | 0, _ => []
  | _ + 1, [] => []
  | fuel + 1, c1 :: rest1 =>
    match c1, rest1 with
    | '<', '<' :: rest =>
      (fun name =>
        if name.isEmpty then scanAngleGo fuel ('<' :: rest)
        else
          match rest.dropWhile (fun c => c ≠ '>') with
          | '>' :: '>' :: tail => name :: scanAngleGo fuel tail
          | _ => scanAngleGo fuel ('<' :: rest))
        (rest.takeWhile (fun c => c ≠ '>'))
    | _, _ => scanAngleGo fuel rest1

/-- Names captured by the `<<([^>]+)>>` scan. -/
def scanAngle (s : Str) : List Str := scanAngleGo s.length s

/-- Candidate split points of the regex `__([A-Za-z0-9_]+)__` inside the
maximal word-character run `w` following an opening `__`: indices `i ≥ 1`
such that `w` has `__` at positions `i, i+1` (the group is `w.take i`,
the closing delimiter the two underscores). -/
def doubleUnderscoreSplits (w : Str) : List Nat :=
  (List.range w.length).filter fun i =>
    decide (1 ≤ i) && (w.get? i == some '_') && (w.get? (i + 1) == some '_')

/-- The greedy (largest) split point, matching the backtracking search
order of `__([A-Za-z0-9_]+)__`: the longest group comes first, so the
match uses the largest valid split. -/
def lastDoubleUnderscore (w : Str) : Option Nat :=
  (doubleUnderscoreSplits w).getLast?

/-- Scan core for the regex `__([A-Za-z0-9_]+)__`.  Since `_` itself is
in the group's character class, the greedy group swallows the closing
underscores and backtracks; the match at an opening `__` captures
`w.take i` for the largest `i` with `__` at `w[i], w[i+1]`, where `w` is
the maximal word-character run after the opening `__`. -/
def scanUnderscoreGo : Nat → Str → List Str
  | 0, _ => []
  | _ + 1, [] => []
  | fuel + 1, c1 :: rest1 =>
    match c1, rest1 with
    | '_', '_' :: rest =>
      (fun w =>
        match lastDoubleUnderscore w with
        | some i => w.take i :: scanUnderscoreGo fuel (rest.drop (i + 2))
        | none => scanUnderscoreGo fuel ('_' :: rest))
        (rest.takeWhile isWordChar)
    | _, _ => scanUnderscoreGo fuel rest1

/-- Names captured by the `__([A-Za-z0-9_]+)__` scan. -/
def scanUnderscore (s : Str) : List Str := scanUnderscoreGo s.length s

/-- Scan core for the regex `%([A-Za-z0-9_]+)%`: at each `%`, the greedy
word-character run must be nonempty and followed by `%`; `%` is not a
word character, so no backtracking subtlety arises. -/
def scanPercentGo : Nat → Str → List Str
  | 0, _ => []
  | _ + 1, [] => []
  | fuel + 1, c :: rest =>
    if c = '%' then
      (fun w =>
        if w.isEmpty then scanPercentGo fuel rest
        else
          match rest.drop w.length with
          | '%' :: _ => w :: scanPercentGo fuel (rest.drop (w.length + 1))
          | _ => scanPercentGo fuel rest)
        (rest.takeWhile isWordChar)
    else scanPercentGo fuel rest

/-- Names captured by the `%([A-Za-z0-9_]+)%` scan. -/
def scanPercent (s : Str) : List Str := scanPercentGo s.length s

/-- Deduplication performed by the `map[string]bool` accumulator of the
extraction functions: the returned slice carries each name once (Go's
map iteration order is unspecified; this model keeps the last
first-scan occurrence order, which is one admissible order). -/
def dedup : List Str → List Str
  | [] => []
  | x :: rest => if x ∈ rest then dedup rest else x :: dedup rest

/-- Model of `ExtractVariablesFromFile` (replacer.go lines 65-109): the
deduplicated union of the four scans over the content. -/
def ExtractVariablesFromFile (content : Str) : List Str :=
  dedup (scanBraces content ++ scanAngle content ++
    scanUnderscore content ++ scanPercent content)

/-- Model of `ExtractVariablesFromPath` (replacer.go lines 112-156): the same four
scans over a path string. -/
def ExtractVariablesFromPath (path : Str) : List Str :=
  dedup (scanBraces path ++ scanAngle path ++
    scanUnderscore path ++ scanPercent path)

/-- Modelled from the spec: the format-aware
`ExtractVariablesFromFile(content, formats)` called by the generator
(the format-aware body is not under src/; src shows the formats-less
version).  Per spec §4.1, only enabled formats' scans run; the
deduplicated union of their names is returned. -/
def extractVariablesFromFileF (F : FormatOptions) (content : Str) : List Str :=
  dedup ((if F.enableBraces then scanBraces content else []) ++
    (if F.enableAngleBrackets then scanAngle content else []) ++
    (if F.enableUnderscores then scanUnderscore content else []) ++
    (if F.enablePercent then scanPercent content else []))

/-- Modelled from the spec: the format-aware
`ExtractVariablesFromPath(path, formats)` called by the generator (body
not under src/). -/
def extractVariablesFromPathF (F : FormatOptions) (path : Str) : List Str :=
  dedup ((if F.enableBraces then scanBraces path else []) ++
    (if F.enableAngleBrackets then scanAngle path else []) ++
    (if F.enableUnderscores then scanUnderscore path else []) ++
    (if F.enablePercent then scanPercent path else []))

/-- Model of `IsBinaryFile` (replacer.go lines 159-182), over the readable content
of the path's file: `none` models a path that cannot be opened (missing
or unreadable), returning `false`; an empty file's first `Read` returns
`io.EOF`, also `false`; otherwise a zero byte among the first 512 bytes
classifies the file binary. -/
def IsBinaryFile : Option Str → Bool
  | none => false
  | some bs => if bs.isEmpty then false else (bs.take 512).any fun c => c.toNat == 0

/-- Model of `truncateString` (generator): cap at `maxLen` characters, appending
`"..."` when truncation happened. -/
def truncateString (s : Str) (maxLen : Nat) : Str :=
  if s.length ≤ maxLen then s else s.take maxLen ++ "...".data

/-- Model of `filepath.Join` on the already-clean relative paths the walker
produces. -/
def pathJoin (a b : Str) : Str := a ++ "/".data ++ b

/-- Model of `filepath.Dir` on the walker's target paths: everything before the
last separator, `"."` when there is none. -/
def dirname (p : Str) : Str :=
  (fun r => if r.isEmpty then ".".data else (r.drop 1).reverse)
    (p.reverse.dropWhile fun c => c ≠ '/')

/-- Model of `os.FileInfo` of a walked entry: a directory or a file with its
permission bits and (for files) its byte content. -/
inductive FileInfo where
  | dirInfo (mode : Nat)
  | fileInfo (mode : Nat) (content : Str)
deriving DecidableEq

/-- One filesystem action or dry-run report of `Generator.Generate` /
`processFile` / `copyFile`, one constructor per call site:
`mkdirRoot` is `os.MkdirAll(g.cfg.OutputDir, 0755)`; `mkdirDir` is
`os.MkdirAll(targetPath, info.Mode())` for a directory entry;
`mkdirParent` is `os.MkdirAll(filepath.Dir(targetPath), 0755)`;
`copyBin` is `copyFile` (destination opened with the recorded mode, the
source's bytes copied verbatim); `writeText` is the
`os.OpenFile(targetPath, ..., info.Mode())` + `Write(newContent)` pair;
the three `report*` constructors are the `[DRY RUN]` prints. -/
inductive Effect where
  | mkdirRoot (path : Str)
  | mkdirDir (path : Str) (mode : Nat)
  | mkdirParent (path : Str)
  | copyBin (src dst : Str) (mode : Nat) (content : Str)
  | writeText (path : Str) (mode : Nat) (content : Str)
  | reportDir (path : Str)
  | reportBin (src dst : Str)
  | reportFile (path preview : Str)
deriving DecidableEq

/-- Whether an effect mutates the filesystem (all non-report effects). -/
def isMutation : Effect → Bool
  | .mkdirRoot _ => true
  | .mkdirDir _ _ => true
  | .mkdirParent _ => true
  | .copyBin _ _ _ _ => true
  | .writeText _ _ _ => true
  | .reportDir _ => false
  | .reportBin _ _ => false
  | .reportFile _ _ => false

/-- The dry-run report corresponding to a real run's primary effect:
directory creations, binary copies and text writes are reported with
the same paths (and for text files the substituted content truncated at
200 characters); parent-directory bookkeeping has no report. -/
def primaryToReport : Effect → Option Effect
  | .mkdirDir p _ => some (.reportDir p)
  | .copyBin s d _ _ => some (.reportBin s d)
  | .writeText p _ c => some (.reportFile p (truncateString c 200))
  | _ => none

/-- The walk callback of `Generator.Generate` (replacer.go lines
227-253) and `processFile` (lines 256-316) on one walked entry, given
its path relative to the template root and its `FileInfo`.  The root
entry (`relPath == "."`) is skipped; the target path joins the output
directory with the substituted relative path; directories are created
(or reported), files are classified by `IsBinaryFile` on their readable
content and then copied (`copyFile`, destination mode hardcoded 0644)
or substituted and written with the source file's mode. -/
def processItem (tpl out : Str) (F : FormatOptions) (vars : List (Str × Str))
    (dry : Bool) (item : Str × FileInfo) : List Effect :=
  if item.1 = ".".data then []
  else
    (fun target =>
      match item.2 with
      | .dirInfo mode =>
        if dry then [.reportDir target] else [.mkdirDir target mode]
      | .fileInfo mode content =>
        (fun src =>
          if IsBinaryFile (some content) then
            if dry then [.reportBin src target]
            else [.mkdirParent (dirname target), .copyBin src target 0o644 content]
          else
            (fun newContent =>
              if dry then [.reportFile target (truncateString newContent 200)]
              else [.mkdirParent (dirname target),
                .writeText target mode newContent])
              (replaceInContentF F vars content))
          (pathJoin tpl item.1))
      (pathJoin out (replaceInPathF F vars item.1))

/-- Model of `Generator.Generate` (replacer.go lines 210-253).  The template tree
reaches the function only through `filepath.Walk`'s enumeration, which
is modelled as the input: `none` when the template directory does not
exist (`os.Stat` + `os.IsNotExist` fails the operation first), and
`some items` otherwise, where `items` lists every walked entry with its
template-relative path in `filepath.Walk`'s order, the root itself
appearing as `"."`.  On the success path the output directory is
created unconditionally (`os.MkdirAll(OutputDir, 0755)` runs before the
walk, dry-run or not) and each entry is processed in order. -/
def Generate (tpl out : Str) (F : FormatOptions) (vars : List (Str × Str))
    (dry : Bool) : Option (List (Str × FileInfo)) → Except Unit (List Effect)
  | none => .error ()
  | some items =>
    .ok (.mkdirRoot out :: items.flatMap (processItem tpl out F vars dry))

/-- Membership in the deduplicated list is membership in the original. -/
theorem mem_dedup {a : Str} : ∀ {l : List Str}, a ∈ dedup l ↔ a ∈ l := by
  intro l
  induction l with
  | nil => simp [dedup]
  | cons x rest ih =>
    simp only [dedup]
    by_cases h : x ∈ rest
    · rw [if_pos h, ih]
      constructor
      · exact List.mem_cons_of_mem x
      · intro h'
        rcases List.mem_cons.mp h' with rfl | h''
        · exact h
        · exact h''
    · rw [if_neg h]
      simp [List.mem_cons, ih]

/-- The deduplicated list carries no duplicates. -/
theorem nodup_dedup : ∀ (l : List Str), (dedup l).Nodup := by
  intro l
  induction l with
  | nil => simp [dedup]
  | cons x rest ih =>
    simp only [dedup]
    by_cases h : x ∈ rest
    · rw [if_pos h]; exact ih
    · rw [if_neg h]
      exact List.nodup_cons.mpr ⟨fun hm => h (mem_dedup.mp hm), ih⟩

/-- Membership in a flag-guarded scan result. -/
theorem mem_ite_nil {a : Str} {b : Bool} {l : List Str} :
    (a ∈ if b then l else []) ↔ (b = true ∧ a ∈ l) := by
  cases b <;> simp

/-- The per-variable path pass equals the per-variable content pass
(`strings.ReplaceAll` and `bytes.ReplaceAll` coincide). -/
theorem applyVariableInPath_eq_applyVariable (acc : Str) (kv : Str × Str) :
    applyVariableInPath acc kv = applyVariable acc kv := by
  simp [applyVariableInPath, applyVariable, stringsReplaceAll_eq_bytesReplaceAll]

/-- Function `ReplaceInPath` computes the same function as `ReplaceInContent`. -/
theorem ReplaceInPath_eq_ReplaceInContent (vars : List (Str × Str)) :
    ∀ s : Str, ReplaceInPath vars s = ReplaceInContent vars s := by
  induction vars with
  | nil => intro s; rfl
  | cons kv rest ih =>
    intro s
    simp only [ReplaceInPath, ReplaceInContent, List.foldl_cons,
      applyVariableInPath_eq_applyVariable]
    exact ih (applyVariable s kv)

/-- A dry-run `processItem` emits only reports, never mutations. -/
theorem processItem_dry_reports_only (tpl out : Str) (F : FormatOptions)
    (vars : List (Str × Str)) (item : Str × FileInfo) :
    (processItem tpl out F vars true item).all (fun e => !isMutation e) = true := by
  unfold processItem
  by_cases h : item.1 = ".".data
  · simp [h]
  · rw [if_neg h]
    cases item.2 with
    | dirInfo mode => simp [isMutation]
    | fileInfo mode content =>
      by_cases hb : IsBinaryFile (some content) = true
      · simp [hb, isMutation]
      · simp [hb, isMutation]

/-- A dry-run `processItem` reports exactly the primary effects the real
run would perform, with the same target paths and the substituted
content truncated at 200 characters. -/
theorem processItem_dry_eq_filterMap (tpl out : Str) (F : FormatOptions)
    (vars : List (Str × Str)) (item : Str × FileInfo) :
    processItem tpl out F vars true item =
      (processItem tpl out F vars false item).filterMap primaryToReport := by
  unfold processItem
  by_cases h : item.1 = ".".data
  · simp [h]
  · rw [if_neg h, if_neg h]
    cases item.2 with
    | dirInfo mode => simp [primaryToReport]
    | fileInfo mode content =>
      by_cases hb : IsBinaryFile (some content) = true
      · simp [hb, primaryToReport]
      · simp [hb, primaryToReport]

/-- Fuel does not matter for the `bytes.ReplaceAll` core once it covers
the input's length. -/
theorem bytesReplaceAllGo_fuel_irrel (pat rep : Str) :
    ∀ (f1 f2 : Nat) (s : Str), s.length ≤ f1 → s.length ≤ f2 →
      bytesReplaceAllGo f1 s pat rep = bytesReplaceAllGo f2 s pat rep := by
  intro f1
  induction f1 with
  | zero =>
    intro f2 s h1 _
    have hs : s = [] := List.length_eq_zero.mp (Nat.le_zero.mp h1)
    subst hs
    cases f2 <;> rfl
  | succ n ih =>
    intro f2 s h1 h2
    cases s with
    | nil => cases f2 <;> rfl
    | cons c rest =>
      cases f2 with
      | zero => simp at h2
      | succ m =>
        simp only [List.length_cons] at h1 h2
        cases hpe : pat.isEmpty with
        | true => simp [bytesReplaceAllGo, hpe]
        | false =>
          have hplen : 1 ≤ pat.length := by
            cases pat
            · simp [List.isEmpty] at hpe
            · simp
          cases hpre : pat.isPrefixOf (c :: rest) with
          | true =>
            simp only [bytesReplaceAllGo, hpe, hpre, Bool.false_eq_true,
              if_false, if_true]
            congr 1
            apply ih
            · simp only [List.length_drop, List.length_cons]
              omega
            · simp only [List.length_drop, List.length_cons]
              omega
          | false =>
            simp only [bytesReplaceAllGo, hpe, hpre, Bool.false_eq_true,
              if_false]
            congr 1
            apply ih
            · omega
            · omega

/-- A list is an `isPrefixOf`-prefix of itself followed by anything. -/
theorem isPrefixOf_append_self : ∀ (p t : Str), p.isPrefixOf (p ++ t) = true := by
  intro p t
  induction p with
  | nil => simp [List.isPrefixOf]
  | cons a as ih => simp [List.isPrefixOf, ih]

/-- A pattern whose head differs from the scanned head is no prefix. -/
theorem isPrefixOf_cons_of_head_ne (hc c : Char) (p t : Str) (h : hc ≠ c) :
    (hc :: p).isPrefixOf (c :: t) = false := by
  simp [List.isPrefixOf, beq_eq_false_iff_ne.mpr h]

/-- The `ReplaceAll` scan walks past a non-matching head character. -/
theorem bytesReplaceAll_cons_ne (c : Char) (t pat rep : Str)
    (hpe : pat.isEmpty = false) (h : pat.isPrefixOf (c :: t) = false) :
    bytesReplaceAll (c :: t) pat rep = c :: bytesReplaceAll t pat rep := by
  simp [bytesReplaceAll, bytesReplaceAllGo, hpe, h]

/-- The `ReplaceAll` scan replaces a pattern occurrence at the head and
continues after it. -/
theorem bytesReplaceAll_at_head (hc : Char) (p post rep : Str) :
    bytesReplaceAll ((hc :: p) ++ post) (hc :: p) rep =
      rep ++ bytesReplaceAll post (hc :: p) rep := by
  have hpre : (hc :: p).isPrefixOf (hc :: (p ++ post)) = true := by
    have h := isPrefixOf_append_self (hc :: p) post
    simp only [List.cons_append] at h
    exact h
  have hdrop : List.drop (p.length + 1) (hc :: (p ++ post)) = post := by
    have h := List.drop_left p post
    simp only [List.drop_succ_cons]
    exact h
  simp only [bytesReplaceAll, List.cons_append, List.length_cons,
    bytesReplaceAllGo, List.append_eq, List.isEmpty_cons, Bool.false_eq_true,
    if_false, hpre, if_true, hdrop]
  congr 1
  exact bytesReplaceAllGo_fuel_irrel (hc :: p) rep _ _ post
    (by simp only [List.length_append]; omega) (Nat.le_refl _)

/-- A `bytes.ReplaceAll` pass on `pre ++ pat ++ post` replaces exactly
the explicit occurrence when the pattern's head character does not occur
in `pre` and the pattern does not occur in `post`. -/
theorem bytesReplaceAll_replace_once (hc : Char) (p pre post rep : Str)
    (hpre : hc ∉ pre) (hpost : occursIn (hc :: p) post = false) :
    bytesReplaceAll (pre ++ (hc :: p) ++ post) (hc :: p) rep =
      pre ++ rep ++ post := by
  induction pre with
  | nil =>
    simp only [List.nil_append]
    rw [bytesReplaceAll_at_head hc p post rep,
      bytesReplaceAll_of_not_occurs post (hc :: p) rep hpost]
  | cons c cs ih =>
    have hne : hc ≠ c := by
      intro he
      exact hpre (by simp [he])
    have hcs : hc ∉ cs := fun hm => hpre (by simp [hm])
    simp only [List.cons_append]
    rw [bytesReplaceAll_cons_ne c (cs ++ (hc :: p) ++ post) (hc :: p) rep rfl
      (isPrefixOf_cons_of_head_ne hc c p _ hne)]
    have h' := ih hcs
    simp only [List.cons_append] at h'
    rw [h']

/-- The four placeholder grammars, abstracted so statements can quantify
over which format is the disabled or the enabled one. -/
inductive FormatKind where
  | braces
  | angle
  | underscores
  | percent
deriving DecidableEq, Fintype

/-- The pattern a format wraps around a key. -/
def patOf : FormatKind → Str → Str
  | .braces, key => bracesPat key
  | .angle, key => anglePat key
  | .underscores, key => underscorePat key
  | .percent, key => percentPat key

/-- The `FormatOptions` flag governing a format. -/
def enabledIn : FormatKind → FormatOptions → Bool
  | .braces, F => F.enableBraces
  | .angle, F => F.enableAngleBrackets
  | .underscores, F => F.enableUnderscores
  | .percent, F => F.enablePercent

/-- The opening delimiter character of a format's pattern. -/
def delimCharOf : FormatKind → Char
  | .braces => '\x7b'
  | .angle => '<'
  | .underscores => '_'
  | .percent => '%'

/-- The braces pattern in head-and-tail form. -/
theorem bracesPat_eq_cons (k : Str) :
    bracesPat k = '\x7b' :: ("\x7b".data ++ k ++ "\x7d\x7d".data) := rfl

/-- The angle pattern in head-and-tail form. -/
theorem anglePat_eq_cons (k : Str) :
    anglePat k = '<' :: ("<".data ++ k ++ ">>".data) := rfl

/-- The underscore pattern in head-and-tail form. -/
theorem underscorePat_eq_cons (k : Str) :
    underscorePat k = '_' :: ("_".data ++ k ++ "__".data) := rfl

/-- The percent pattern in head-and-tail form. -/
theorem percentPat_eq_cons (k : Str) :
    percentPat k = '%' :: (k ++ "%".data) := rfl

/-- An enabled guarded pass is the plain `bytes.ReplaceAll` pass. -/
theorem passIf_true (pat rep t : Str) :
    passIf true pat rep t = bytesReplaceAll t pat rep := rfl

/-- A guarded pass is the identity when its flag being enabled implies
its pattern does not occur. -/
theorem passIf_guard {b : Bool} {pat rep s : Str}
    (h : b = true → occursIn pat s = false) : passIf b pat rep s = s := by
  cases b with
  | false => rfl
  | true => simp [passIf, bytesReplaceAll_of_not_occurs s pat rep (h rfl)]

/-- One variable's format-aware pass on `pre ++ patOf g k ++ post`
substitutes exactly the explicit enabled-format placeholder when the
other enabled formats' patterns occur neither before nor after the
substitution (the disabled formats' placeholders in `pre`/`post` are
unconstrained and survive verbatim). -/
theorem applyVariableF_mixed (F : FormatOptions) (g : FormatKind)
    (k v pre post : Str)
    (hg : enabledIn g F = true)
    (hpre : delimCharOf g ∉ pre)
    (hpost : occursIn (patOf g k) post = false)
    (hothers : ∀ h : FormatKind, h ≠ g → enabledIn h F = true →
      occursIn (patOf h k) (pre ++ patOf g k ++ post) = false ∧
      occursIn (patOf h k) (pre ++ v ++ post) = false) :
    applyVariableF F (pre ++ patOf g k ++ post) (k, v) = pre ++ v ++ post := by
  cases g with
  | braces =>
    dsimp only [patOf] at hpost ⊢
    dsimp only [applyVariableF]
    rw [show F.enableBraces = true from hg, passIf_true,
      bracesPat_eq_cons k] at *
    rw [bytesReplaceAll_replace_once '\x7b' _ pre post v hpre hpost]
    have g2 : passIf F.enableAngleBrackets (anglePat k) v (pre ++ v ++ post) =
        pre ++ v ++ post :=
      passIf_guard (fun hb => (hothers FormatKind.angle (by decide) hb).2)
    have g3 : passIf F.enableUnderscores (underscorePat k) v (pre ++ v ++ post) =
        pre ++ v ++ post :=
      passIf_guard (fun hb => (hothers FormatKind.underscores (by decide) hb).2)
    have g4 : passIf F.enablePercent (percentPat k) v (pre ++ v ++ post) =
        pre ++ v ++ post :=
      passIf_guard (fun hb => (hothers FormatKind.percent (by decide) hb).2)
    rw [g2, g3, g4]
  | angle =>
    dsimp only [patOf] at hpost ⊢
    dsimp only [applyVariableF]
    have g1 : passIf F.enableBraces (bracesPat k) v
        (pre ++ anglePat k ++ post) = pre ++ anglePat k ++ post :=
      passIf_guard (fun hb => (hothers FormatKind.braces (by decide) hb).1)
    rw [g1, show F.enableAngleBrackets = true from hg, passIf_true,
      anglePat_eq_cons k] at *
    rw [bytesReplaceAll_replace_once '<' _ pre post v hpre hpost]
    have g3 : passIf F.enableUnderscores (underscorePat k) v (pre ++ v ++ post) =
        pre ++ v ++ post :=
      passIf_guard (fun hb => (hothers FormatKind.underscores (by decide) hb).2)
    have g4 : passIf F.enablePercent (percentPat k) v (pre ++ v ++ post) =
        pre ++ v ++ post :=
      passIf_guard (fun hb => (hothers FormatKind.percent (by decide) hb).2)
    rw [g3, g4]
  | underscores =>
    dsimp only [patOf] at hpost ⊢
    dsimp only [applyVariableF]
    have g1 : passIf F.enableBraces (bracesPat k) v
        (pre ++ underscorePat k ++ post) = pre ++ underscorePat k ++ post :=
      passIf_guard (fun hb => (hothers FormatKind.braces (by decide) hb).1)
    have g2 : passIf F.enableAngleBrackets (anglePat k) v
        (pre ++ underscorePat k ++ post) = pre ++ underscorePat k ++ post :=
      passIf_guard (fun hb => (hothers FormatKind.angle (by decide) hb).1)
    rw [g1, g2, show F.enableUnderscores = true from hg, passIf_true,
      underscorePat_eq_cons k] at *
    rw [bytesReplaceAll_replace_once '_' _ pre post v hpre hpost]
    have g4 : passIf F.enablePercent (percentPat k) v (pre ++ v ++ post) =
        pre ++ v ++ post :=
      passIf_guard (fun hb => (hothers FormatKind.percent (by decide) hb).2)
    rw [g4]
  | percent =>
    dsimp only [patOf] at hpost ⊢
    dsimp only [applyVariableF]
    have g1 : passIf F.enableBraces (bracesPat k) v
        (pre ++ percentPat k ++ post) = pre ++ percentPat k ++ post :=
      passIf_guard (fun hb => (hothers FormatKind.braces (by decide) hb).1)
    have g2 : passIf F.enableAngleBrackets (anglePat k) v
        (pre ++ percentPat k ++ post) = pre ++ percentPat k ++ post :=
      passIf_guard (fun hb => (hothers FormatKind.angle (by decide) hb).1)
    have g3 : passIf F.enableUnderscores (underscorePat k) v
        (pre ++ percentPat k ++ post) = pre ++ percentPat k ++ post :=
      passIf_guard (fun hb => (hothers FormatKind.underscores (by decide) hb).1)
    rw [g1, g2, g3, show F.enablePercent = true from hg, passIf_true,
      percentPat_eq_cons k] at *
    rw [bytesReplaceAll_replace_once '%' _ pre post v hpre hpost]

/-- Format-aware substitution on a buffer holding one enabled-format
placeholder of a variable anywhere in the set substitutes exactly it:
variables processed before it and after it touch nothing, and the
surrounding text — which may hold any disabled format's placeholders —
is kept verbatim. -/
theorem replaceInContentF_mixed (F : FormatOptions) (g : FormatKind)
    (k v pre post : Str) (vars₁ vars₂ : List (Str × Str))
    (hg : enabledIn g F = true)
    (hpre : delimCharOf g ∉ pre)
    (hpost : occursIn (patOf g k) post = false)
    (hothers : ∀ h : FormatKind, h ≠ g → enabledIn h F = true →
      occursIn (patOf h k) (pre ++ patOf g k ++ post) = false ∧
      occursIn (patOf h k) (pre ++ v ++ post) = false)
    (h1 : noEnabledPatternOccurs F vars₁ (pre ++ patOf g k ++ post) = true)
    (h2 : noEnabledPatternOccurs F vars₂ (pre ++ v ++ post) = true) :
    replaceInContentF F (vars₁ ++ (k, v) :: vars₂) (pre ++ patOf g k ++ post) =
      pre ++ v ++ post := by
  unfold replaceInContentF
  rw [List.foldl_append]
  have e1 : List.foldl (applyVariableF F) (pre ++ patOf g k ++ post) vars₁ =
      pre ++ patOf g k ++ post :=
    replaceInContentF_of_not_occurs F vars₁ _ h1
  rw [e1, List.foldl_cons,
    applyVariableF_mixed F g k v pre post hg hpre hpost hothers]
  exact replaceInContentF_of_not_occurs F vars₂ _ h2

/-- A guarded path pass equals the guarded content pass. -/
theorem passIfPath_eq_passIf (b : Bool) (pat rep t : Str) :
    passIfPath b pat rep t = passIf b pat rep t := by
  cases b <;> simp [passIfPath, passIf, stringsReplaceAll_eq_bytesReplaceAll]

/-- The per-variable format-aware path pass equals the content pass. -/
theorem applyVariableInPathF_eq_applyVariableF (F : FormatOptions)
    (acc : Str) (kv : Str × Str) :
    applyVariableInPathF F acc kv = applyVariableF F acc kv := by
  simp [applyVariableInPathF, applyVariableF, passIfPath_eq_passIf]

/-- Format-aware path substitution computes the same function as
format-aware content substitution. -/
theorem replaceInPathF_eq_replaceInContentF (F : FormatOptions)
    (vars : List (Str × Str)) :
    ∀ s : Str, replaceInPathF F vars s = replaceInContentF F vars s := by
  induction vars with
  | nil => intro s; rfl
  | cons kv rest ih =>
    intro s
    simp only [replaceInPathF, replaceInContentF, List.foldl_cons,
      applyVariableInPathF_eq_applyVariableF]
    exact ih (applyVariableF F s kv)

/-- C1: for every Format Selection, both substitution entry points leave
a buffer verbatim when no enabled format's placeholder of any variable
occurs in it — so every disabled format's placeholders survive, even
when the wrapped name is a key of the set (first conjunct); and on a
buffer holding an enabled-format placeholder of a variable next to
arbitrary text (which may hold any disabled format's placeholders,
e.g. the same name's), both entry points substitute exactly the enabled
placeholder and keep the surrounding text verbatim, for the variable at
any position of the set (second conjunct). -/
theorem c1_disabled_format_left_verbatim :
    (∀ (F : FormatOptions) (vars : List (Str × Str)) (s : Str),
        noEnabledPatternOccurs F vars s = true →
        replaceInContentF F vars s = s ∧ replaceInPathF F vars s = s) ∧
    (∀ (g : FormatKind) (F : FormatOptions) (k v pre post : Str)
        (vars₁ vars₂ : List (Str × Str)),
        enabledIn g F = true →
        delimCharOf g ∉ pre →
        occursIn (patOf g k) post = false →
        (∀ h : FormatKind, h ≠ g → enabledIn h F = true →
          occursIn (patOf h k) (pre ++ patOf g k ++ post) = false ∧
          occursIn (patOf h k) (pre ++ v ++ post) = false) →
        noEnabledPatternOccurs F vars₁ (pre ++ patOf g k ++ post) = true →
        noEnabledPatternOccurs F vars₂ (pre ++ v ++ post) = true →
        replaceInContentF F (vars₁ ++ (k, v) :: vars₂)
            (pre ++ patOf g k ++ post) = pre ++ v ++ post ∧
        replaceInPathF F (vars₁ ++ (k, v) :: vars₂)
            (pre ++ patOf g k ++ post) = pre ++ v ++ post) := by
  constructor
  · intro F vars s h
    refine ⟨replaceInContentF_of_not_occurs F vars s h, ?_⟩
    rw [replaceInPathF_eq_replaceInContentF]
    exact replaceInContentF_of_not_occurs F vars s h
  · intro g F k v pre post vars₁ vars₂ hg hpre hpost hothers h1 h2
    refine ⟨replaceInContentF_mixed F g k v pre post vars₁ vars₂
      hg hpre hpost hothers h1 h2, ?_⟩
    rw [replaceInPathF_eq_replaceInContentF]
    exact replaceInContentF_mixed F g k v pre post vars₁ vars₂
      hg hpre hpost hothers h1 h2

/-- C1 witness: with the percent format disabled, the buffer `%a%` —
the disabled format's placeholder of the present key `a` — is returned
verbatim by both entry points (first conjunct), and in the buffer
`%a% {{a}}!` the enabled braces placeholder of the same name is
substituted while the disabled percent placeholder survives verbatim in
both entry points (second conjunct). -/
theorem c1_disabled_format_left_verbatim_witness :
    (replaceInContentF ⟨true, true, true, false⟩ [("a".data, "X".data)]
        "%a%".data = "%a%".data ∧
      replaceInPathF ⟨true, true, true, false⟩ [("a".data, "X".data)]
        "%a%".data = "%a%".data) ∧
    (replaceInContentF ⟨true, true, true, false⟩ [("a".data, "X".data)]
        ("%a% ".data ++ patOf FormatKind.braces "a".data ++ "!".data) =
        "%a% ".data ++ "X".data ++ "!".data ∧
      replaceInPathF ⟨true, true, true, false⟩ [("a".data, "X".data)]
        ("%a% ".data ++ patOf FormatKind.braces "a".data ++ "!".data) =
        "%a% ".data ++ "X".data ++ "!".data) :=
  ⟨c1_disabled_format_left_verbatim.1 ⟨true, true, true, false⟩
      [("a".data, "X".data)] "%a%".data (by decide),
    c1_disabled_format_left_verbatim.2 FormatKind.braces
      ⟨true, true, true, false⟩ "a".data "X".data "%a% ".data "!".data [] []
      rfl (by decide) (by decide) (by decide) rfl rfl⟩

/-- C7: `IsBinaryFile` classifies binary exactly when a zero byte occurs
among the first (up to) 512 bytes of the readable content, and an
unopenable path (`none`) yields not-binary without raising. -/
theorem c7_binary_classification :
    (∀ bs : Str, IsBinaryFile (some bs) = true ↔ ∃ c ∈ bs.take 512, c.toNat = 0) ∧
    IsBinaryFile none = false := by
  constructor
  · intro bs
    simp only [IsBinaryFile]
    by_cases h : bs.isEmpty
    · rw [List.isEmpty_iff] at h
      subst h
      simp
    · rw [if_neg h]
      simp [List.any_eq_true]
  · rfl

/-- C8: placeholders whose wrapped name is not a key of the variable set
are left verbatim by both substitution entry points (no error for
unresolved placeholders), and bytes outside key placeholders are
unchanged; concretely, `{{b}} {{a}}` with only `a ↦ X` becomes
`{{b}} X`. -/
theorem c8_unknown_names_left_verbatim :
    (∀ (vars : List (Str × Str)) (s : Str), noPatternOccurs vars s = true →
        ReplaceInContent vars s = s) ∧
    (∀ (vars : List (Str × Str)) (p : Str), noPatternOccurs vars p = true →
        ReplaceInPath vars p = p) ∧
    ReplaceInContent [("a".data, "X".data)]
        "\x7b\x7bb\x7d\x7d \x7b\x7ba\x7d\x7d".data =
      "\x7b\x7bb\x7d\x7d X".data := by
  refine ⟨ReplaceInContent_of_not_occurs, ?_, by decide⟩
  intro vars p h
  rw [ReplaceInPath_eq_ReplaceInContent]
  exact ReplaceInContent_of_not_occurs vars p h

/-- C8 witness: `{{b}}` with variable set `{a ↦ X}` contains no key
placeholder and is returned verbatim. -/
theorem c8_unknown_names_left_verbatim_witness :
    ReplaceInContent [("a".data, "X".data)] "\x7b\x7bb\x7d\x7d".data =
      "\x7b\x7bb\x7d\x7d".data :=
  c8_unknown_names_left_verbatim.1 [("a".data, "X".data)]
    "\x7b\x7bb\x7d\x7d".data (by decide)

/-- C9: on a buffer containing no remaining placeholder of any key,
substitution returns the identical buffer, hence applying it twice
equals applying it once. -/
theorem c9_substitution_idempotent :
    ∀ (vars : List (Str × Str)) (s : Str), noPatternOccurs vars s = true →
      ReplaceInContent vars s = s ∧
      ReplaceInContent vars (ReplaceInContent vars s) =
        ReplaceInContent vars s := by
  intro vars s h
  have h1 := ReplaceInContent_of_not_occurs vars s h
  exact ⟨h1, by rw [h1]; exact h1⟩

/-- C9 witness: the fully substituted buffer `done X` is a fixed point of
substitution with `{a ↦ X}`. -/
theorem c9_substitution_idempotent_witness :
    ReplaceInContent [("a".data, "X".data)] "done X".data = "done X".data ∧
    ReplaceInContent [("a".data, "X".data)]
        (ReplaceInContent [("a".data, "X".data)] "done X".data) =
      ReplaceInContent [("a".data, "X".data)] "done X".data :=
  c9_substitution_idempotent [("a".data, "X".data)] "done X".data (by decide)

/-- C10: path-mode substitution agrees with content-mode substitution on
every string and variable set: `ReplaceInPath` and `ReplaceInContent`
compute the same function. -/
theorem c10_path_agrees_with_content :
    ∀ (vars : List (Str × Str)) (s : Str),
      ReplaceInPath vars s = ReplaceInContent vars s :=
  fun vars => ReplaceInPath_eq_ReplaceInContent vars

/-- C6: format-aware extraction returns the deduplicated union of the
enabled formats' scans (path extraction computes the same function);
the file `{{a}} <<b>> __c__ %d%` yields exactly `[a, b, c, d]` with all
formats enabled and exactly `[a]` with only braces enabled. -/
theorem c6_extraction_union_of_enabled_scans :
    (∀ (F : FormatOptions) (s x : Str),
        x ∈ extractVariablesFromFileF F s ↔
          (F.enableBraces = true ∧ x ∈ scanBraces s) ∨
          (F.enableAngleBrackets = true ∧ x ∈ scanAngle s) ∨
          (F.enableUnderscores = true ∧ x ∈ scanUnderscore s) ∨
          (F.enablePercent = true ∧ x ∈ scanPercent s)) ∧
    (∀ (F : FormatOptions) (s : Str), (extractVariablesFromFileF F s).Nodup) ∧
    (∀ (F : FormatOptions) (p : Str),
        extractVariablesFromPathF F p = extractVariablesFromFileF F p) ∧
    extractVariablesFromFileF allFormats
        "\x7b\x7ba\x7d\x7d <<b>> __c__ %d%".data =
      ["a".data, "b".data, "c".data, "d".data] ∧
    extractVariablesFromFileF ⟨true, false, false, false⟩
        "\x7b\x7ba\x7d\x7d <<b>> __c__ %d%".data = ["a".data] := by
  refine ⟨?_, ?_, fun F p => rfl, by decide, by decide⟩
  · intro F s x
    unfold extractVariablesFromFileF
    rw [mem_dedup]
    simp [List.mem_append, mem_ite_nil, or_assoc]
  · intro F s
    exact nodup_dedup _

/-- C5 counterexample: substitution is not iteration-order independent.
With variables `a ↦ %b%` and `b ↦ 1`, the buffer `%a%` becomes `1` when
`a` is processed first but `%b%` when `b` is processed first, although
the two variable lists are permutations of each other. -/
theorem c5_substitution_order_matters_counterexample :
    List.Perm [("a".data, "%b%".data), ("b".data, "1".data)]
      [("b".data, "1".data), ("a".data, "%b%".data)] ∧
    ReplaceInContent [("a".data, "%b%".data), ("b".data, "1".data)] "%a%".data ≠
      ReplaceInContent [("b".data, "1".data), ("a".data, "%b%".data)] "%a%".data := by
  constructor
  · exact List.Perm.swap _ _ _
  · decide

/-- C5 amended: substitution output is independent of the iteration order
over the variables provided the per-variable passes pairwise commute
(no variable's replacement interferes with another variable's
placeholders); any permutation of a pairwise-commuting variable list
yields identical output on every buffer. -/
theorem c5_substitution_order_irrelevant_of_commuting :
    ∀ (l l' : List (Str × Str)), l.Perm l' →
      (∀ p ∈ l, ∀ q ∈ l, ∀ t : Str,
        applyVariable (applyVariable t p) q = applyVariable (applyVariable t q) p) →
      ∀ s : Str, ReplaceInContent l s = ReplaceInContent l' s := by
  intro l l' hperm
  induction hperm with
  | nil => intro _ s; rfl
  | cons x h ih =>
    intro hcomm s
    simp only [ReplaceInContent, List.foldl_cons]
    exact ih
      (fun p hp q hq t =>
        hcomm p (List.mem_cons_of_mem x hp) q (List.mem_cons_of_mem x hq) t)
      (applyVariable s x)
  | swap x y l₁ =>
    intro hcomm s
    simp only [ReplaceInContent, List.foldl_cons]
    rw [hcomm y (by simp) x (by simp) s]
  | trans h₁ h₂ ih₁ ih₂ =>
    intro hcomm s
    refine (ih₁ hcomm s).trans (ih₂ ?_ s)
    intro p hp q hq t
    exact hcomm p (h₁.mem_iff.mpr hp) q (h₁.mem_iff.mpr hq) t

/-- C5 witness: a singleton variable list trivially pairwise commutes, so
the amended theorem applies to it. -/
theorem c5_substitution_order_irrelevant_of_commuting_witness :
    ReplaceInContent [("a".data, "X".data)] "%a%".data =
      ReplaceInContent [("a".data, "X".data)] "%a%".data :=
  c5_substitution_order_irrelevant_of_commuting
    [("a".data, "X".data)] [("a".data, "X".data)] (List.Perm.refl _)
    (fun p hp q hq t => by
      rw [List.mem_singleton] at hp hq
      rw [hp, hq]) "%a%".data

/-- C2 counterexample: a dry run does not create zero destination
directories — `os.MkdirAll(OutputDir, 0755)` runs before the dry-run
flag is consulted, so the destination root is created even in dry-run
mode. -/
theorem c2_dry_run_creates_output_root_counterexample :
    Generate "t".data "o".data allFormats [] true
        (some [("d".data, .dirInfo 0o755)]) =
      .ok [.mkdirRoot "o".data, .reportDir "o/d".data] ∧
    isMutation (.mkdirRoot "o".data) = true := by
  exact ⟨by rfl, rfl⟩

/-- C2 amended: a dry run performs no filesystem write and creates no
destination directory or file beyond the destination root (which both
modes create unconditionally before the walk), and it reports exactly
the destination paths the real run would create and, for text files,
the substituted content truncated at 200 characters. -/
theorem c2_dry_run_no_writes_and_reports_match :
    ∀ (tpl out : Str) (F : FormatOptions) (vars : List (Str × Str))
      (items : List (Str × FileInfo)),
      ∃ des res,
        Generate tpl out F vars true (some items) =
          .ok (.mkdirRoot out :: des) ∧
        Generate tpl out F vars false (some items) =
          .ok (.mkdirRoot out :: res) ∧
        des.all (fun e => !isMutation e) = true ∧
        des = res.filterMap primaryToReport := by
  intro tpl out F vars items
  refine ⟨items.flatMap (processItem tpl out F vars true),
    items.flatMap (processItem tpl out F vars false), rfl, rfl, ?_, ?_⟩
  · induction items with
    | nil => rfl
    | cons it rest ih =>
      simp only [List.flatMap_cons, List.all_append, ih,
        processItem_dry_reports_only, Bool.and_true]
  · induction items with
    | nil => rfl
    | cons it rest ih =>
      simp only [List.flatMap_cons, List.filterMap_append, ih]
      rw [← processItem_dry_eq_filterMap]

/-- C3: the code contradicts the permission contract for binary files —
`copyFile` opens the destination with hardcoded mode `0644`, so a
binary template file with mode `0755` (here a one-byte file holding a
zero byte) is copied byte-for-byte but with mode `0644 ≠ 0755`. -/
theorem c3_binary_copy_mode_not_preserved :
    Generate "t".data "o".data allFormats [] false
        (some [("b.bin".data, .fileInfo 0o755 [Char.ofNat 0])]) =
      .ok [.mkdirRoot "o".data, .mkdirParent "o".data,
        .copyBin "t/b.bin".data "o/b.bin".data 0o644 [Char.ofNat 0]] ∧
    (0o644 : Nat) ≠ 0o755 := by
  exact ⟨by rfl, by decide⟩

/-- C4 counterexample: a source root that exists but is not a directory
is not rejected — `Generate` only tests `os.IsNotExist`, so a file root
walks as the single entry `"."` (skipped) and generation succeeds after
creating the destination root. -/
theorem c4_nondirectory_root_accepted_counterexample :
    Generate "t".data "o".data allFormats [] false
        (some [(".".data, .fileInfo 0o644 "x".data)]) =
      .ok [.mkdirRoot "o".data] ∧
    isMutation (.mkdirRoot "o".data) = true := by
  exact ⟨by rfl, rfl⟩

/-- C4 amended: when the source root does not exist, `Generate` fails
with a single error and performs no filesystem effect at all; a source
root that exists but is not a directory passes validation and
generation succeeds after creating only the destination root. -/
theorem c4_missing_root_fails_before_output :
    (∀ (tpl out : Str) (F : FormatOptions) (vars : List (Str × Str)) (dry : Bool),
        Generate tpl out F vars dry none = .error ()) ∧
    (∀ (tpl out : Str) (F : FormatOptions) (vars : List (Str × Str))
        (mode : Nat) (content : Str),
        Generate tpl out F vars false (some [(".".data, .fileInfo mode content)]) =
          .ok [.mkdirRoot out]) := by
  constructor
  · intro tpl out F vars dry
    rfl
  · intro tpl out F vars mode content
    simp [Generate, processItem]
